import Mathlib

/-!
Verification of the sqlex SQL checker/fixer/linter.

Source text is modelled as `List Char`, one byte per character (the repository
only manipulates ASCII in the fragments verified here, where byte offsets and
character offsets coincide).  The external SQL front-end (tokenizer/parser of
the `sqlparser` crate) is not part of the repository; it is modelled as an
explicit parameter: token streams, parse results and error messages are inputs
to the embedded functions, exactly as the Rust code receives them.
-/

namespace Sqlex

/-- Convert a string literal to the `List Char` text representation used
throughout this development. -/
def str (s : String) : List Char := s.toList

/-- Rust `char::is_whitespace` restricted to the ASCII range (space, tab,
line feed, vertical tab, form feed, carriage return). -/
def isRustWhitespace (c : Char) : Bool :=
  c = ' ' || c = '\t' || c = '\n' || c = '\x0b' || c = '\x0c' || c = '\r'

/-- Rust `str::trim_end`. -/
def trimEnd (l : List Char) : List Char :=
  (l.reverse.dropWhile isRustWhitespace).reverse

/-- Rust `str::trim_start`. -/
def trimStart (l : List Char) : List Char :=
  l.dropWhile isRustWhitespace

/-- Rust `str::trim`. -/
def trim (l : List Char) : List Char :=
  trimEnd (trimStart l)

/-- Rust `str::to_uppercase`, character by character (all text the program
upcases is ASCII, where the mapping is 1-to-1). -/
def toUpperL (l : List Char) : List Char := l.map Char.toUpper

/-- Rust `str::to_lowercase`, character by character. -/
def toLowerL (l : List Char) : List Char := l.map Char.toLower

/-- Rust `str::find(pattern)`: index of the first occurrence of `pat` in `s`. -/
def findSub : List Char → List Char → Option Nat
  | s, pat =>
    if pat.isPrefixOf s then some 0
    else
      match s with
      | [] => none
      | _ :: t => (findSub t pat).map (· + 1)

/-- Rust `str::contains(pattern)`. -/
def strContains (s pat : List Char) : Bool := (findSub s pat).isSome

/-- Rust `str::lines` helper: drop one trailing carriage return. -/
def stripCR (l : List Char) : List Char :=
  match l.getLast? with
  | some '\r' => l.dropLast
  | _ => l

/-- Worker for `rustLines`: `acc` holds the current line reversed. -/
def rustLinesAux : List Char → List Char → List (List Char)
  | acc, [] => [stripCR acc.reverse]
  | acc, c :: rest =>
    if c = '\n' then
      match rest with
      | [] => [stripCR acc.reverse]
      | _ => stripCR acc.reverse :: rustLinesAux [] rest
    else rustLinesAux (c :: acc) rest

/-- Rust `str::lines`: split on `'\n'` (removing a trailing `'\r'` from each
line); a final trailing newline produces no extra empty line; the empty string
has no lines. -/
def rustLines : List Char → List (List Char)
  | [] => []
  | s => rustLinesAux [] s

/-- Digits-to-number accumulation used by `usize::from_str` on an all-digit
string (machine overflow is not modelled). -/
def digitsToNat (l : List Char) : Nat :=
  l.foldl (fun acc c => 10 * acc + (c.toNat - 48)) 0

/-- Rust `str::parse::<usize>().ok()`: succeeds exactly on a non-empty string
of ASCII digits (overflow is not modelled). -/
def parseNatOpt (l : List Char) : Option Nat :=
  if l ≠ [] ∧ l.all Char.isDigit then some (digitsToNat l) else none

end Sqlex

namespace Sqlex

/-! ## Position mapper (src/src/checker.rs, src/src/linter.rs) -/

/-- Worker for `build_line_offsets`: `i` is the index of the head of the
remaining text in the whole document. -/
def lineOffsetsAux : List Char → Nat → List Nat
  | [], _ => []
  | c :: rest, i =>
    if c = '\n' then (i + 1) :: lineOffsetsAux rest (i + 1)
    else lineOffsetsAux rest (i + 1)

/-- Embeds `build_line_offsets` (checker.rs): byte offset of every line start;
entry 0 is the offset of line 1. -/
def build_line_offsets (src : List Char) : List Nat :=
  0 :: lineOffsetsAux src 0

/-- Embeds `location_to_byte_offset` (checker.rs): 1-based (line, column) to byte
offset, with the end-of-table fallback of the source. -/
def location_to_byte_offset (line_offsets : List Nat) (line column : Nat) : Nat :=
  let lineIdx := line - 1
  let colOff := column - 1
  if lineIdx < line_offsets.length then
    line_offsets.getD lineIdx 0 + colOff
  else
    line_offsets.getLast?.getD 0

/-- Worker for `pos_to_line_col`: processes `min pos (length of text)`
characters, advancing the line/column counters. -/
def posToLineColAux : List Char → Nat → Nat → Nat → Nat × Nat
  | _, 0, line, col => (line, col)
  | [], _ + 1, line, col => (line, col)
  | c :: rest, m + 1, line, col =>
    if c = '\n' then posToLineColAux rest m (line + 1) 1
    else posToLineColAux rest m line (col + 1)

/-- Embeds `pos_to_line_col` (linter.rs): character position to 1-based
(line, column). -/
def pos_to_line_col (sql : List Char) (pos : Nat) : Nat × Nat :=
  posToLineColAux sql pos 1 1

/-- Content of the 1-based line `line` of `s`: the text from that line's
start offset up to the next newline. -/
def nthLine (s : List Char) (line : Nat) : List Char :=
  (s.drop ((build_line_offsets s).getD (line - 1) 0)).takeWhile (· ≠ '\n')

end Sqlex

namespace Sqlex

/-! ## Diagnostic hint engine (src/src/hints.rs), with the English message
catalog of src/src/i18n.rs -/

/-- English `hint_trailing_comma` message (i18n.rs). -/
def hint_trailing_comma (line : Nat) : List Char :=
  str "Line " ++ str (toString line) ++ str " may have a trailing comma that should be removed"

/-- English `hint_check_parentheses` message (i18n.rs). -/
def hint_check_parentheses : List Char := str "Check for mismatched parentheses"

/-- English `hint_missing_parentheses` message (i18n.rs). -/
def hint_missing_parentheses : List Char := str "Function call may require parentheses"

/-- English `hint_unclosed_parentheses` message (i18n.rs). -/
def hint_unclosed_parentheses (count : Nat) : List Char :=
  str (toString count) ++ str " unclosed parenthesis(es) found"

/-- English `hint_unclosed_quote` message (i18n.rs). -/
def hint_unclosed_quote : List Char := str "Unclosed quote found"

/-- Embeds `ErrorHint` (hints.rs). -/
structure ErrorHint where
  hint : List Char
  suspect_line : Option Nat
  suspect_pattern : Option (List Char)
deriving DecidableEq, Repr

/-- Embeds `CLAUSE_KEYWORDS` (hints.rs): keywords that typically start a new clause. -/
def CLAUSE_KEYWORDS : List (List Char) :=
  [str "SELECT", str "FROM", str "WHERE", str "JOIN", str "LEFT", str "RIGHT",
   str "INNER", str "OUTER", str "FULL", str "CROSS", str "ON", str "AND",
   str "OR", str "ORDER", str "GROUP", str "HAVING", str "LIMIT", str "OFFSET",
   str "UNION", str "INSERT", str "UPDATE", str "DELETE", str "SET",
   str "VALUES", str "INTO"]

/-- Does a trimmed, upper-cased line start with a clause keyword?
(`CLAUSE_KEYWORDS.iter().any(|kw| line_content.starts_with(kw))`). -/
def startsWithClauseKw (line : List Char) : Bool :=
  CLAUSE_KEYWORDS.any (fun kw => kw.isPrefixOf (toUpperL (trim line)))

/-- The backward scan `for check_idx in (0..error_line).rev()` of rule 1:
returns the 1-based number of the nearest clause-keyword line strictly below
`error_line + 1`. -/
def findKwLineAux (lines : List (List Char)) : Nat → Option Nat
  | 0 => none
  | i + 1 =>
    if startsWithClauseKw (lines.getD i []) then some (i + 1)
    else findKwLineAux lines i

/-- Rule 1 of `analyze_error` (hints.rs): the trailing-comma heuristic,
comprising its range guard, the clause-keyword backward scan with the
preceding-line comma test, and the error-line fallback. -/
def trailingCommaHint (source : List Char) (error_line : Nat) : Option ErrorHint :=
  let lines := rustLines source
  if 1 < error_line ∧ error_line ≤ lines.length then
    let kwBranch : Option ErrorHint :=
      match findKwLineAux lines error_line with
      | some kw_line =>
        if 1 < kw_line then
          let prev_line := trim (lines.getD (kw_line - 2) [])
          if prev_line.getLast? = some ',' then
            some ⟨hint_trailing_comma (kw_line - 1), some (kw_line - 1), some (str ",")⟩
          else none
        else none
      | none => none
    match kwBranch with
    | some h => some h
    | none =>
      if 1 < error_line then
        let prev_line := trim (lines.getD (error_line - 2) [])
        if prev_line.getLast? = some ',' then
          some ⟨hint_trailing_comma (error_line - 1), some (error_line - 1), some (str ",")⟩
        else none
      else none
  else none

/-- Rule 4 of `analyze_error` (hints.rs): the end-of-input heuristic, counting
parentheses and single quotes over the whole document. -/
def eofHint (source : List Char) : Option ErrorHint :=
  let open_parens := (source.filter (fun c => c = '(')).length
  let close_parens := (source.filter (fun c => c = ')')).length
  if close_parens < open_parens then
    some ⟨hint_unclosed_parentheses (open_parens - close_parens), none, some (str "(")⟩
  else
    let single_quotes := (source.filter (fun c => c = '\x27')).length
    if single_quotes % 2 ≠ 0 then
      some ⟨hint_unclosed_quote, none, some (str "\x27")⟩
    else none

/-- Embeds `analyze_error` (hints.rs): the ordered decision list of hint rules; the
first rule that fires wins. -/
def analyze_error (error_msg source : List Char) (error_line : Nat) : Option ErrorHint :=
  let rule1 :=
    if strContains error_msg (str "Expected:") && strContains error_msg (str "found:") then
      trailingCommaHint source error_line
    else none
  match rule1 with
  | some h => some h
  | none =>
    if strContains error_msg (str "Expected: )") then
      some ⟨hint_check_parentheses, none, none⟩
    else if strContains error_msg (str "Expected: (") then
      some ⟨hint_missing_parentheses, none, none⟩
    else if strContains error_msg (str "EOF") || strContains error_msg (str "end of") then
      eofHint source
    else none

end Sqlex

deriving instance DecidableEq for Except

namespace Sqlex

/-! ## Syntax checker (src/src/checker.rs) -/

/-- Embeds `SyntaxError` (checker.rs). -/
structure SyntaxError where
  line : Nat
  column : Nat
  message : List Char
deriving DecidableEq, Repr

/-- Embeds `parse_error_location` (checker.rs): extract `(line, column)` from a
rendered parser error message, defaulting each coordinate to 1. -/
def parse_error_location (error_msg : List Char) : Nat × Nat :=
  let line :=
    (match findSub error_msg (str "Line: ") with
      | some i =>
        let rest := error_msg.drop (i + 6)
        let e :=
          match rest.findIdx? (fun (c : Char) => !c.isDigit) with
          | some j => j
          | none => rest.length
        parseNatOpt (rest.take e)
      | none => none).getD 1
  let column :=
    (match findSub error_msg (str "Column") with
      | some i =>
        let rest := error_msg.drop (i + 6)
        match rest.findIdx? (fun (c : Char) => c.isDigit) with
        | some start =>
          let num_rest := rest.drop start
          let e :=
            match num_rest.findIdx? (fun (c : Char) => !c.isDigit) with
            | some j => j
            | none => num_rest.length
          parseNatOpt (num_rest.take e)
        | none => none
      | none => none).getD 1
  (line, column)

/-- Embeds `check_sql` (checker.rs).  The external parser's outcome is an input: on
success no diagnostics, on failure one `SyntaxError` located by
`parse_error_location` on the rendered message. -/
def check_sql (parse_outcome : Except (List Char) Unit) : List SyntaxError :=
  match parse_outcome with
  | .ok _ => []
  | .error msg =>
    let lc := parse_error_location msg
    [⟨lc.1, lc.2, msg⟩]

/-! ## Tokens of the external front-end -/

/-- A token of the external tokenizer, as far as the repository inspects it:
word tokens carry their value and optional quote character
(`Token::Word` with `quote_style`), every other token only its rendering. -/
inductive RToken where
  | word (value : List Char) (quote_style : Option Char)
  | other (text : List Char)
deriving DecidableEq, Repr

/-- Rust `Token::to_string()`. -/
def tokenText : RToken → List Char
  | .word value none => value
  | .word value (some q) => q :: value ++ [q]
  | .other text => text

/-- A token with its span start, as produced by
`Tokenizer::tokenize_with_location` (1-based line and column). -/
structure SToken where
  tok : RToken
  line : Nat
  column : Nat
deriving DecidableEq, Repr

/-! ## Keyword table (src/src/linter.rs) -/

/-- Embeds `is_sql_keyword` (linter.rs): case-insensitive membership in the fixed
keyword table. -/
def is_sql_keyword (word : List Char) : Bool :=
  [str "SELECT", str "FROM", str "WHERE", str "AND", str "OR", str "NOT",
   str "IN", str "IS", str "NULL", str "LIKE", str "BETWEEN", str "JOIN",
   str "LEFT", str "RIGHT", str "INNER", str "OUTER", str "FULL", str "CROSS",
   str "ON", str "AS", str "ORDER", str "BY", str "ASC", str "DESC",
   str "GROUP", str "HAVING", str "LIMIT", str "OFFSET", str "UNION",
   str "ALL", str "DISTINCT", str "INSERT", str "INTO", str "VALUES",
   str "UPDATE", str "SET", str "DELETE", str "CREATE", str "TABLE",
   str "INDEX", str "VIEW", str "DROP", str "ALTER", str "ADD", str "COLUMN",
   str "PRIMARY", str "KEY", str "FOREIGN", str "REFERENCES",
   str "CONSTRAINT", str "DEFAULT", str "UNIQUE", str "CHECK", str "CASCADE",
   str "RESTRICT", str "IF", str "EXISTS", str "CASE", str "WHEN",
   str "THEN", str "ELSE", str "END", str "CAST", str "COALESCE",
   str "NULLIF", str "TRUE", str "FALSE", str "WITH", str "RECURSIVE",
   str "WINDOW", str "OVER", str "PARTITION", str "ROWS", str "RANGE",
   str "UNBOUNDED", str "PRECEDING", str "FOLLOWING", str "CURRENT",
   str "ROW", str "EXCEPT", str "INTERSECT", str "FETCH", str "FIRST",
   str "NEXT", str "ONLY", str "PERCENT", str "TIES", str "FOR",
   str "SHARE", str "NOWAIT", str "SKIP", str "LOCKED"].contains (toUpperL word)

/-! ## Token-case corrector (src/src/checker.rs, `fix_content`) -/

/-- The replacement a single token contributes in `fix_content`'s collection
loop: unquoted word tokens that are keywords and not already uppercase yield
`(byte_offset, original_len, replacement)`. -/
def repOf (line_offsets : List Nat) (t : SToken) : Option (Nat × Nat × List Char) :=
  match t.tok with
  | .word value quote_style =>
    if quote_style = none ∧ is_sql_keyword value then
      if value ≠ toUpperL value then
        some (location_to_byte_offset line_offsets t.line t.column, value.length,
          toUpperL value)
      else none
    else none
  | .other _ => none

/-- The replacement list `fix_content` collects for a token stream, in token
order. -/
def computeReplacements (content : List Char) (tokens : List SToken) :
    List (Nat × Nat × List Char) :=
  tokens.filterMap (repOf (build_line_offsets content))

/-- One step of `fix_content`'s application loop:
`result.replace_range(offset..offset + len, &replacement)`, guarded by the
source's bounds check `offset + len <= result.len()`. -/
def applyOne (result : List Char) (r : Nat × Nat × List Char) : List Char :=
  if r.1 + r.2.1 ≤ result.length then
    result.take r.1 ++ r.2.2 ++ result.drop (r.1 + r.2.1)
  else result

/-- Embeds `fix_content`'s application loop: the collected replacements applied in
reverse (descending-offset) order. -/
def applyRev (content : List Char) (reps : List (Nat × Nat × List Char)) : List Char :=
  reps.reverse.foldl applyOne content

/-- Step 1 of `fix_content`: the keyword-case pass, skipped entirely when the
external tokenizer fails. -/
def keywordPass (content : List Char) (tok_result : Option (List SToken)) : List Char :=
  match tok_result with
  | some tokens => applyRev content (computeReplacements content tokens)
  | none => content

/-- Step 2 of `fix_content`: trailing-terminator normalization (`trimmed` of
the source is `trimEnd s`). -/
def terminatorPass (s : List Char) : List Char :=
  if trimEnd s ≠ [] ∧ (trimEnd s).getLast? ≠ some ';' then trimEnd s ++ str ";\n"
  else s

/-- Embeds `fix_content` (checker.rs): keyword-case pass then terminator pass,
always returning `Ok`.  The external tokenizer's outcome is the
`tok_result` input. -/
def fix_content (content : List Char) (tok_result : Option (List SToken)) :
    Except (List Char) (List Char) :=
  Except.ok (terminatorPass (keywordPass content tok_result))

end Sqlex

namespace Sqlex

/-! ## Lint rule evaluator (src/src/linter.rs) -/

/-- Embeds `Severity` (linter.rs). -/
inductive Severity where
  | error
  | warning
  | info
deriving DecidableEq, Repr

/-- Embeds `LintError` (linter.rs). -/
structure LintError where
  rule : List Char
  line : Nat
  column : Nat
  message : List Char
  severity : Severity
deriving DecidableEq, Repr

/-- Embeds `KeywordCase` (linter.rs). -/
inductive KeywordCase where
  | upper
  | lower
  | ignore
deriving DecidableEq, Repr

/-- Embeds `LintConfig` (linter.rs). -/
structure LintConfig where
  keyword_case : KeywordCase
  no_select_star : Bool
  require_table_alias : Bool
  trailing_semicolon : Bool
deriving DecidableEq, Repr

/-! The fragment of the external parser's AST that the linter inspects. -/

/-- Embeds `SelectItem`: the linter distinguishes plain wildcards, qualified
wildcards, and everything else. -/
inductive SelectItem where
  | wildcard
  | qualifiedWildcard
  | otherItem
deriving DecidableEq, Repr

/-- Embeds `TableFactor`: a direct table reference with name and optional alias, or
any other source (derived table, subquery, ...). -/
inductive TableFactor where
  | table (name : List Char) (aliasName : Option (List Char))
  | otherFactor
deriving DecidableEq, Repr

/-- A `Join`, as far as the linter inspects it: its relation. -/
structure JoinAst where
  relation : TableFactor
deriving DecidableEq, Repr

/-- Embeds `TableWithJoins`. -/
structure TableWithJoins where
  relation : TableFactor
  joins : List JoinAst
deriving DecidableEq, Repr

/-- A `SetExpr` body: a plain select (projection and FROM list) or any other
set expression. -/
inductive SetExpr where
  | select (projection : List SelectItem) (fromTables : List TableWithJoins)
  | otherSet
deriving DecidableEq, Repr

/-- A `Statement`: a query with a body, or any other statement. -/
inductive Statement where
  | query (body : SetExpr)
  | otherStmt
deriving DecidableEq, Repr

/-- English `keyword_case_error` message (i18n.rs). -/
def keyword_case_error (actual expected : List Char) : List Char :=
  str "Keyword \x27" ++ actual ++ str "\x27 should be \x27" ++ expected ++ str "\x27"

/-- English `no_select_star_error` message (i18n.rs). -/
def no_select_star_error : List Char := str "Avoid SELECT *. Specify columns explicitly"

/-- English `require_table_alias_error` message (i18n.rs). -/
def require_table_alias_error (table : List Char) : List Char :=
  str "Table \x27" ++ table ++ str "\x27 should have an alias"

/-- English `trailing_semicolon_error` message (i18n.rs). -/
def trailing_semicolon_error : List Char := str "Missing trailing semicolon"

/-- The warnings one token contributes in `check_keyword_case`'s loop, with
the cursor at `pos`: a reserved-keyword word token whose casing violates the
policy yields one `keyword-case` warning located by `pos_to_line_col`
(`is_upper` requires all characters uppercase, `is_lower` all lowercase). -/
def keywordCaseErrs (kw_case : KeywordCase) (sql : List Char) (pos : Nat)
    (token : RToken) : List LintError :=
  match token with
  | .word value _ =>
    if is_sql_keyword value then
      if (match kw_case with
          | .upper => !(value.all Char.isUpper)
          | .lower => !(value.all Char.isLower)
          | .ignore => false) then
        [LintError.mk (str "keyword-case") (pos_to_line_col sql pos).1
          (pos_to_line_col sql pos).2
          (keyword_case_error value
            (match kw_case with
              | .upper => toUpperL value
              | .lower => toLowerL value
              | .ignore => value)) .warning]
      else []
    else []
  | .other _ => []

/-- The cursor advance of `check_keyword_case`'s loop:
`if let Some(idx) = sql[pos..].find(&token_str) { pos += idx + token_len }`. -/
def keywordCaseAdvance (sql : List Char) (pos : Nat) (token : RToken) : Nat :=
  match findSub (sql.drop pos) (tokenText token) with
  | some idx => pos + idx + (tokenText token).length
  | none => pos

/-- One iteration of `check_keyword_case`'s token loop: inspect the token at
the current cursor, then advance the cursor by forward text search. -/
def keywordCaseStep (kw_case : KeywordCase) (sql : List Char)
    (state : Nat × List LintError) (token : RToken) : Nat × List LintError :=
  (keywordCaseAdvance sql state.1 token,
    state.2 ++ keywordCaseErrs kw_case sql state.1 token)

/-- Embeds `check_keyword_case` (linter.rs): token-level keyword-case check with the
forward-search position cursor; the external tokenizer's outcome is the
`tok_result` input (`tokenize()` failure yields no warnings). -/
def check_keyword_case (kw_case : KeywordCase) (sql : List Char)
    (tok_result : Option (List RToken)) : List LintError :=
  match tok_result with
  | some tokens => (tokens.foldl (keywordCaseStep kw_case sql) (0, [])).2
  | none => []

/-- Embeds `check_select_star` (linter.rs): one warning per wildcard projection item
of a plain select query. -/
def check_select_star (stmt : Statement) : List LintError :=
  match stmt with
  | .query (.select projection _) =>
    projection.foldl
      (fun acc item =>
        acc ++
          (match item with
            | .wildcard =>
              [LintError.mk (str "no-select-star") 1 1 no_select_star_error .warning]
            | .qualifiedWildcard =>
              [LintError.mk (str "no-select-star") 1 1 no_select_star_error .warning]
            | .otherItem => []))
      []
  | _ => []

/-- Embeds `check_table_with_joins` (linter.rs). -/
def check_table_with_joins (table : TableWithJoins) : List LintError :=
  let head :=
    match table.relation with
    | .table name none =>
      [LintError.mk (str "require-table-alias") 1 1 (require_table_alias_error name) .warning]
    | _ => []
  head ++
    table.joins.foldl
      (fun acc j =>
        acc ++
          (match j.relation with
            | .table name none =>
              [LintError.mk (str "require-table-alias") 1 1
                (require_table_alias_error name) .warning]
            | _ => []))
      []

/-- Embeds `check_table_alias` (linter.rs). -/
def check_table_alias (stmt : Statement) : List LintError :=
  match stmt with
  | .query (.select _ fromTables) =>
    fromTables.foldl (fun acc t => acc ++ check_table_with_joins t) []
  | _ => []

/-- Embeds `check_trailing_semicolon` (linter.rs): `trimmed` of the source is
`trim sql` and `lines` is `rustLines sql`. -/
def check_trailing_semicolon (sql : List Char) : List LintError :=
  if trim sql ≠ [] ∧ (trim sql).getLast? ≠ some ';' then
    [LintError.mk (str "trailing-semicolon") (rustLines sql).length
      (((rustLines sql).getLast?.map List.length).getD 1) trailing_semicolon_error .warning]
  else []

/-- Embeds `Linter::lint` (linter.rs): keyword-case check, then the AST-based checks
guarded by a successful parse, then the trailing-semicolon check.  The
external front-end outcomes (`tokenize()` and `Parser::parse_sql`) are the
`tok_result` and `parse_result` inputs. -/
def lint (config : LintConfig) (sql : List Char) (tok_result : Option (List RToken))
    (parse_result : Option (List Statement)) : List LintError :=
  let e1 :=
    if config.keyword_case ≠ .ignore then check_keyword_case config.keyword_case sql tok_result
    else []
  let e2 :=
    match parse_result with
    | some statements =>
      statements.foldl
        (fun acc stmt =>
          acc ++ (if config.no_select_star then check_select_star stmt else []) ++
            (if config.require_table_alias then check_table_alias stmt else []))
        []
    | none => []
  let e3 := if config.trailing_semicolon then check_trailing_semicolon sql else []
  e1 ++ e2 ++ e3

end Sqlex

namespace Sqlex

/-! ## Replacement application, forward variant and well-formed token streams -/

/-- Modelled from the spec: "applying them via any forward, offset-adjusting
algorithm".  The canonical forward algorithm: apply replacements in ascending
offset order, keeping a running delta (replacement length minus original
length) that adjusts every later offset. -/
def applyForwardAux : List Char → List (Nat × Nat × List Char) → Int → List Char
  | s, [], _ => s
  | s, (off, len, repl) :: rest, d =>
    let o := ((off : Int) + d).toNat
    applyForwardAux (s.take o ++ repl ++ s.drop (o + len)) rest
      (d + (repl.length : Int) - (len : Int))

/-- Modelled from the spec: the forward, offset-adjusting application starting
with delta 0. -/
def applyForward (s : List Char) (reps : List (Nat × Nat × List Char)) : List Char :=
  applyForwardAux s reps 0

/-- Shift every replacement offset down by `k` (proof device for splitting a
document at position `k`). -/
def shiftReps (k : Nat) (reps : List (Nat × Nat × List Char)) :
    List (Nat × Nat × List Char) :=
  reps.map (fun r => (r.1 - k, r.2))

/-- Reference splice semantics: consume the document left to right, emitting
untouched text and replacements (proof device). -/
def applyChunks : List Char → List (Nat × Nat × List Char) → List Char
  | s, [] => s
  | s, (off, len, repl) :: rest =>
    s.take off ++ repl ++ applyChunks (s.drop (off + len)) (shiftReps (off + len) rest)
termination_by _ reps => reps.length
decreasing_by simp [shiftReps]

/-- The replacements appear in ascending offset order and are pairwise
non-overlapping. -/
def repsSorted (reps : List (Nat × Nat × List Char)) : Prop :=
  reps.Pairwise (fun a b => a.1 + a.2.1 ≤ b.1)

/-- Every replacement's target byte range lies inside the document. -/
def repsInBounds (s : List Char) (reps : List (Nat × Nat × List Char)) : Prop :=
  ∀ r ∈ reps, r.1 + r.2.1 ≤ s.length

/-- Byte offset of a token's span start in `content`, exactly as `fix_content`
computes it. -/
def tokenOff (content : List Char) (t : SToken) : Nat :=
  location_to_byte_offset (build_line_offsets content) t.line t.column

/-- Byte length of a token's rendering. -/
def tokenLen (t : SToken) : Nat := (tokenText t.tok).length

/-- Contract of the external tokenizer (spec section 6): tokens appear in
source order with non-overlapping spans, every span lies inside the document,
and the text at a token's span is the token's rendering. -/
def wfTokenStream (content : List Char) (tokens : List SToken) : Prop :=
  tokens.Pairwise (fun a b => tokenOff content a + tokenLen a ≤ tokenOff content b) ∧
    ∀ t ∈ tokens, tokenOff content t + tokenLen t ≤ content.length ∧
      (content.drop (tokenOff content t)).take (tokenLen t) = tokenText t.tok

/-! ## Concrete scenario data (inputs of the external front-end) -/

/-- Scenario B input text. -/
def scenarioB_text : List Char := str "select  id  from  users;"

/-- The token stream the external tokenizer produces for `scenarioB_text`
(1-based spans). -/
def scenarioB_tokens : List SToken :=
  [⟨.word (str "select") none, 1, 1⟩, ⟨.other (str "  "), 1, 7⟩,
   ⟨.word (str "id") none, 1, 9⟩, ⟨.other (str "  "), 1, 11⟩,
   ⟨.word (str "from") none, 1, 13⟩, ⟨.other (str "  "), 1, 17⟩,
   ⟨.word (str "users") none, 1, 19⟩, ⟨.other (str ";"), 1, 24⟩]

/-- Scenario A source (hints.rs test fixture). -/
def scenarioA_source : List Char :=
  str "SELECT\n  id,\n  name,\n  email,\nWHERE\n  active = 1"

/-- A miniature concrete tokenizer used to instantiate the idempotence
theorem: it knows the two texts that arise when fixing `"select x"` and
behaves on them as the external tokenizer does. -/
def tokIdem (s : List Char) : Option (List SToken) :=
  if s = str "select x" then
    some [⟨.word (str "select") none, 1, 1⟩, ⟨.other (str " "), 1, 7⟩,
          ⟨.word (str "x") none, 1, 8⟩]
  else if s = str "SELECT x;\n" then
    some [⟨.word (str "SELECT") none, 1, 1⟩, ⟨.other (str " "), 1, 7⟩,
          ⟨.word (str "x") none, 1, 8⟩, ⟨.other (str ";"), 1, 9⟩]
  else none

/-- Input text used to instantiate the replacement-refinement theorem. -/
def refineB_text : List Char := str "select x"

/-- The external tokenizer's stream for `refineB_text`. -/
def refineB_tokens : List SToken :=
  [⟨.word (str "select") none, 1, 1⟩, ⟨.other (str " "), 1, 7⟩,
   ⟨.word (str "x") none, 1, 8⟩]

end Sqlex

namespace Sqlex

/-! # Theorems -/

/-! ## Helper lemmas -/

theorem trimEnd_append_semi_nl (x : List Char) : trimEnd (x ++ str ";\n") = x ++ [';'] := by
  simp [trimEnd, str, List.dropWhile, isRustWhitespace]

theorem terminatorPass_idem (s : List Char) :
    terminatorPass (terminatorPass s) = terminatorPass s := by
  by_cases h : trimEnd s ≠ [] ∧ (trimEnd s).getLast? ≠ some ';'
  · have e1 : terminatorPass s = trimEnd s ++ str ";\n" := by
      unfold terminatorPass; rw [if_pos h]
    rw [e1]
    unfold terminatorPass
    rw [trimEnd_append_semi_nl, if_neg (by simp [List.getLast?_concat])]
  · have e1 : terminatorPass s = s := by
      unfold terminatorPass; rw [if_neg h]
    rw [e1]; exact e1

theorem take_findIdx_not_eq_takeWhile (p : Char → Bool) (l : List Char) :
    l.take
      (match l.findIdx? (fun c => !p c) with
        | some j => j
        | none => l.length) = l.takeWhile p := by
  induction l with
  | nil => simp
  | cons c t ih =>
    by_cases hc : p c
    · simp only [List.findIdx?_cons, hc, Bool.not_true, if_neg, Bool.false_eq_true,
        not_false_iff, List.findIdx?_succ, List.takeWhile_cons_of_pos hc]
      cases h : t.findIdx? (fun c => !p c) with
      | none => simpa [h, List.take_succ_cons] using ih
      | some j => simpa [h, List.take_succ_cons] using ih
    · simp [List.findIdx?_cons, hc, List.takeWhile_cons_of_neg, Bool.not_eq_true]

/-! ## C9: fix_content on tokenization failure -/

/-- C9 counterexample.  The claim states that on tokenization failure the
result is "trailing whitespace trimmed and ';' plus a newline appended
whenever the trimmed content is non-empty and does not already end with ';'".
On the input `"x;  "` the trimmed content already ends with `';'`, and the
code returns the input unchanged — the trailing whitespace is NOT trimmed, so
the unconditional-trim reading of the claim is false. -/
theorem fix_content_keeps_trailing_ws :
    fix_content (str "x;  ") none = Except.ok (str "x;  ") ∧
      trimEnd (str "x;  ") = str "x;" ∧ str "x;  " ≠ str "x;" := by
  refine ⟨by decide, by decide, by decide⟩

/-- C9 (amended): `fix_content` never returns an error: for every input on
which the tokenizer fails the keyword-case pass is skipped, and the result is
the trimmed content followed by ";\n" whenever the trimmed content is
non-empty and does not already end with ';', and the unchanged input
otherwise (trailing whitespace preserved in that case). -/
theorem fix_content_tokenizer_failure (content : List Char) :
    fix_content content none =
      Except.ok
        (if trimEnd content ≠ [] ∧ (trimEnd content).getLast? ≠ some ';' then
          trimEnd content ++ str ";\n"
        else content) := by
  simp [fix_content, keywordPass, terminatorPass]

/-! ## C4: Scenario B -/

/-- C4 counterexample.  Fixing `"select  id  from  users;"` yields
`"SELECT  id  FROM  users;"` — the input already ends with `';'`, so no
newline is appended; the claimed result `"SELECT  id  FROM  users;\n"` is not
what the code produces. -/
theorem scenarioB_no_trailing_newline :
    fix_content scenarioB_text (some scenarioB_tokens) =
        Except.ok (str "SELECT  id  FROM  users;") ∧
      str "SELECT  id  FROM  users;" ≠ str "SELECT  id  FROM  users;\n" := by
  refine ⟨by decide, by decide⟩

/-- C4 (amended): fixing `"select  id  from  users;"` with the uppercase
keyword policy yields exactly `"SELECT  id  FROM  users;"`: the double-space
inter-token gaps are preserved byte for byte, only keyword casing changes,
and no terminator is appended because the text already ends with ';'. -/
theorem scenarioB_fix_exact :
    fix_content scenarioB_text (some scenarioB_tokens) =
      Except.ok (str "SELECT  id  FROM  users;") := by
  decide

/-! ## C10: parse_error_location defaults -/

/-- C10 counterexample.  The message `"Line: 0, Column: 0"` parses to the
location `(0, 0)`, so a `SyntaxError` produced from it does not carry a
location of at least `(1, 1)`. -/
theorem parse_error_location_zero :
    check_sql (Except.error (str "Line: 0, Column: 0")) =
        [⟨0, 0, str "Line: 0, Column: 0"⟩] ∧
      ¬1 ≤ (parse_error_location (str "Line: 0, Column: 0")).1 := by
  refine ⟨by decide, by decide⟩

/-- C10 (amended): `parse_error_location` is total and defaults each
coordinate to 1: the line is 1 whenever the message has no `"Line: "` marker
or no digit follows the marker, the column is 1 whenever the message has no
`"Column"` marker or no digit at all follows it, and for a message with
neither marker every `SyntaxError` produced by `check_sql` carries location
`(1, 1)`.  (A marker followed by an explicit `0` propagates the `0`.) -/
theorem parse_error_location_defaults (msg : List Char) :
    (findSub msg (str "Line: ") = none → (parse_error_location msg).1 = 1) ∧
      (∀ i, findSub msg (str "Line: ") = some i →
        (msg.drop (i + 6)).takeWhile Char.isDigit = [] →
        (parse_error_location msg).1 = 1) ∧
      (findSub msg (str "Column") = none → (parse_error_location msg).2 = 1) ∧
      (∀ i, findSub msg (str "Column") = some i →
        (∀ c ∈ msg.drop (i + 6), c.isDigit = false) →
        (parse_error_location msg).2 = 1) ∧
      (findSub msg (str "Line: ") = none → findSub msg (str "Column") = none →
        parse_error_location msg = (1, 1) ∧
          check_sql (Except.error msg) = [⟨1, 1, msg⟩]) := by
  refine ⟨?_, ?_, ?_, ?_, ?_⟩
  · intro h
    simp [parse_error_location, h]
  · intro i hi hdig
    simp only [parse_error_location, hi]
    rw [take_findIdx_not_eq_takeWhile Char.isDigit, hdig]
    simp [parseNatOpt]
  · intro h
    simp [parse_error_location, h]
  · intro i hi hdig
    have : (msg.drop (i + 6)).findIdx? (fun c : Char => c.isDigit) = none := by
      rw [List.findIdx?_eq_none_iff]
      exact hdig
    simp [parse_error_location, hi, this]
  · intro hL hC
    constructor
    · simp [parse_error_location, hL, hC]
    · simp [check_sql, parse_error_location, hL, hC]

/-- C10 witness: a message with no location markers yields `(1, 1)`. -/
theorem parse_error_location_defaults_witness :
    parse_error_location (str "sql parser error: something went wrong") = (1, 1) ∧
      check_sql (Except.error (str "sql parser error: something went wrong")) =
        [⟨1, 1, str "sql parser error: something went wrong"⟩] :=
  (parse_error_location_defaults (str "sql parser error: something went wrong")).2.2.2.2
    (by decide) (by decide)

/-! ## C6: Scenario A -/

/-- C6: for the six-line Scenario A source with reported error line 6 and
message `"Expected: =, found: active"`, `analyze_error` returns the
trailing-comma hint naming line 4 (the `email,` line preceding the `WHERE`
clause-keyword line) as the suspect. -/
theorem scenarioA_suspect_line :
    analyze_error (str "Expected: =, found: active") scenarioA_source 6 =
      some ⟨hint_trailing_comma 4, some 4, some (str ",")⟩ := by
  decide

/-! ## C5: hint rule priority -/

/-- C5: `analyze_error` produces at most one hint (its result is an
`Option`), and on a message that carries both the rule-1 trigger (an
"Expected:" marker together with a "found:" marker) and the rule-2 trigger
("Expected: )"), the trailing-comma hint of rule 1 is returned whenever
rule 1's preconditions produce one, and the rule-2 parentheses hint is
returned exactly when they do not. -/
theorem hint_rule_priority (msg source : List Char) (line : Nat)
    (hE : strContains msg (str "Expected:") = true)
    (hF : strContains msg (str "found:") = true)
    (hP : strContains msg (str "Expected: )") = true) :
    analyze_error msg source line =
      match trailingCommaHint source line with
      | some h => some h
      | none => some ⟨hint_check_parentheses, none, none⟩ := by
  unfold analyze_error
  rw [hE, hF]
  cases h : trailingCommaHint source line with
  | some hint => simp [h]
  | none => simp [h, hP]

/-- C5 witness: a message matching both triggers over a source whose
line 2 ends with a comma right before a clause-keyword line resolves via
rule 1. -/
theorem hint_rule_priority_witness :
    analyze_error (str "Expected: ), found: ,") (str "SELECT\n  a,\nWHERE c") 3 =
      some ⟨hint_trailing_comma 2, some 2, some (str ",")⟩ :=
  (hint_rule_priority (str "Expected: ), found: ,") (str "SELECT\n  a,\nWHERE c") 3
    (by decide) (by decide) (by decide)).trans (by decide)

/-! ## C7: the end-of-input rule -/

/-- C7: when the message carries an end-of-input marker and no earlier rule
produced a hint, `analyze_error` counts parentheses over the whole document
and reports the exact deficit of `')'` against `'('`; otherwise, with an odd
number of single quotes it reports an unclosed quote; otherwise it returns no
hint. -/
theorem eof_rule_behavior (msg source : List Char) (line : Nat)
    (h1 : (if strContains msg (str "Expected:") && strContains msg (str "found:") then
        trailingCommaHint source line
      else none) = none)
    (h2 : strContains msg (str "Expected: )") = false)
    (h3 : strContains msg (str "Expected: (") = false)
    (h4 : (strContains msg (str "EOF") || strContains msg (str "end of")) = true) :
    analyze_error msg source line =
      (if (source.filter (fun c => c = ')')).length <
          (source.filter (fun c => c = '(')).length then
        some ⟨hint_unclosed_parentheses
          ((source.filter (fun c => c = '(')).length -
            (source.filter (fun c => c = ')')).length), none, some (str "(")⟩
      else if (source.filter (fun c => c = '\x27')).length % 2 ≠ 0 then
        some ⟨hint_unclosed_quote, none, some (str "\x27")⟩
      else none) := by
  unfold analyze_error
  rw [h1]
  simp only [h2, h3, h4, Bool.false_eq_true, if_false, if_true]
  rfl

/-- C7 witness: a document with three unmatched `'('` characters and an
end-of-input parse error yields the hint naming exactly 3 unclosed
parentheses. -/
theorem eof_rule_behavior_witness :
    analyze_error (str "unexpected EOF") (str "SELECT ((( x") 1 =
      some ⟨hint_unclosed_parentheses 3, none, some (str "(")⟩ :=
  (eof_rule_behavior (str "unexpected EOF") (str "SELECT ((( x") 1
    (by decide) (by decide) (by decide) (by decide)).trans (by decide)

/-! ## C2: idempotence of fix -/

/-- C2: `fix_content` is idempotent.  `tok` is the external tokenizer; the
hypothesis `hnorep` is the front-end contract instantiated at the fixed text:
re-tokenizing the output of a fix yields a stream in which every unquoted
keyword word is already uppercase, so the collection loop records no further
replacement.  Under it, fixing the result `F` of fixing `S` returns `F`
unchanged. -/
theorem fix_content_idempotent (tok : List Char → Option (List SToken))
    (S F : List Char)
    (hF : fix_content S (tok S) = Except.ok F)
    (hnorep : computeReplacements F ((tok F).getD []) = []) :
    fix_content F (tok F) = Except.ok F := by
  have hFeq : F = terminatorPass (keywordPass S (tok S)) := by
    have := hF
    unfold fix_content at this
    exact (Except.ok.inj this).symm
  have hkw : keywordPass F (tok F) = F := by
    cases h : tok F with
    | none => rfl
    | some tks =>
      have : computeReplacements F tks = [] := by
        simpa [h] using hnorep
      simp [keywordPass, this, applyRev]
  unfold fix_content
  rw [hkw, hFeq, terminatorPass_idem]

/-- C2 witness: with the concrete tokenizer `tokIdem`, fixing `"select x"`
yields `"SELECT x;\n"`, and fixing that result again returns it unchanged. -/
theorem fix_content_idempotent_witness :
    fix_content (str "SELECT x;\n") (tokIdem (str "SELECT x;\n")) =
      Except.ok (str "SELECT x;\n") :=
  fix_content_idempotent tokIdem (str "select x") (str "SELECT x;\n")
    (by decide) (by decide)

/-! ## C8: lint under parse failure -/

theorem mem_foldl_append {α β : Type} (f : α → List β) :
    ∀ (l : List α) (acc : List β) (e : β),
      e ∈ l.foldl (fun acc a => acc ++ f a) acc → e ∈ acc ∨ ∃ a ∈ l, e ∈ f a := by
  intro l
  induction l with
  | nil => intro acc e he; exact Or.inl he
  | cons a rest ih =>
    intro acc e he
    rw [List.foldl_cons] at he
    rcases ih _ _ he with h | ⟨b, hb, hfb⟩
    · rcases List.mem_append.1 h with h | h
      · exact Or.inl h
      · exact Or.inr ⟨a, by simp, h⟩
    · exact Or.inr ⟨b, by simp [hb], hfb⟩

theorem mem_foldl_append2 {α β : Type} (f g : α → List β) :
    ∀ (l : List α) (acc : List β) (e : β),
      e ∈ l.foldl (fun acc a => acc ++ f a ++ g a) acc →
        e ∈ acc ∨ ∃ a ∈ l, e ∈ f a ∨ e ∈ g a := by
  intro l
  induction l with
  | nil => intro acc e he; exact Or.inl he
  | cons a rest ih =>
    intro acc e he
    rw [List.foldl_cons] at he
    rcases ih _ _ he with h | ⟨b, hb, hfb⟩
    · rcases List.mem_append.1 h with h | h
      · rcases List.mem_append.1 h with h | h
        · exact Or.inl h
        · exact Or.inr ⟨a, by simp, Or.inl h⟩
      · exact Or.inr ⟨a, by simp, Or.inr h⟩
    · exact Or.inr ⟨b, by simp [hb], hfb⟩

theorem keywordCaseErrs_rule (kw_case : KeywordCase) (sql : List Char) (pos : Nat)
    (t : RToken) : ∀ e ∈ keywordCaseErrs kw_case sql pos t, e.rule = str "keyword-case" := by
  intro e he
  unfold keywordCaseErrs at he
  rcases t with ⟨v, q⟩ | tx
  · dsimp only at he
    split at he
    · split at he
      · simp only [List.mem_singleton] at he
        rw [he]
      · simp at he
    · simp at he
  · simp at he

theorem keywordCase_foldl_rule (kw_case : KeywordCase) (sql : List Char) :
    ∀ (tokens : List RToken) (pos : Nat) (acc : List LintError),
      (∀ e ∈ acc, e.rule = str "keyword-case") →
      ∀ e ∈ (tokens.foldl (keywordCaseStep kw_case sql) (pos, acc)).2,
        e.rule = str "keyword-case" := by
  intro tokens
  induction tokens with
  | nil => intro pos acc h e he; exact h e he
  | cons t rest ih =>
    intro pos acc h e he
    rw [List.foldl_cons] at he
    refine ih (keywordCaseAdvance sql pos t)
      (acc ++ keywordCaseErrs kw_case sql pos t) ?_ e he
    intro e' he'
    rcases List.mem_append.1 he' with h' | h'
    · exact h e' h'
    · exact keywordCaseErrs_rule kw_case sql pos t e' h'

theorem check_keyword_case_rule (kw_case : KeywordCase) (sql : List Char)
    (tok_result : Option (List RToken)) :
    ∀ e ∈ check_keyword_case kw_case sql tok_result, e.rule = str "keyword-case" := by
  intro e he
  cases tok_result with
  | none => simp [check_keyword_case] at he
  | some tokens =>
    exact keywordCase_foldl_rule kw_case sql tokens 0 [] (by simp) e he

theorem check_trailing_semicolon_rule (sql : List Char) :
    ∀ e ∈ check_trailing_semicolon sql, e.rule = str "trailing-semicolon" := by
  intro e he
  unfold check_trailing_semicolon at he
  split at he
  · simp only [List.mem_singleton] at he
    rw [he]
  · simp at he

theorem check_select_star_rule (stmt : Statement) :
    ∀ e ∈ check_select_star stmt, e.rule = str "no-select-star" := by
  intro e he
  unfold check_select_star at he
  split at he
  · rcases mem_foldl_append _ _ _ _ he with h | ⟨item, _, hfi⟩
    · simp at h
    · rcases item with _ | _ | _ <;> simp only [List.mem_singleton] at hfi <;>
        first
        | (rw [hfi])
        | exact absurd hfi (by simp)
  · simp at he

theorem check_table_with_joins_rule (t : TableWithJoins) :
    ∀ e ∈ check_table_with_joins t, e.rule = str "require-table-alias" := by
  intro e he
  unfold check_table_with_joins at he
  rcases List.mem_append.1 he with h | h
  · split at h
    · simp only [List.mem_singleton] at h
      rw [h]
    · simp at h
  · rcases mem_foldl_append _ _ _ _ h with h' | ⟨j, _, hfj⟩
    · simp at h'
    · revert hfj
      split
      · intro hfj
        simp only [List.mem_singleton] at hfj
        rw [hfj]
      · intro hfj; simp at hfj

theorem check_table_alias_rule (stmt : Statement) :
    ∀ e ∈ check_table_alias stmt, e.rule = str "require-table-alias" := by
  intro e he
  unfold check_table_alias at he
  split at he
  · rcases mem_foldl_append _ _ _ _ he with h | ⟨t, _, hft⟩
    · simp at h
    · exact check_table_with_joins_rule t e hft
  · simp at he

theorem lint_tree_rules (config : LintConfig) (statements : List Statement) :
    ∀ e ∈ statements.foldl
        (fun acc stmt =>
          acc ++ (if config.no_select_star then check_select_star stmt else []) ++
            (if config.require_table_alias then check_table_alias stmt else []))
        [],
      e.rule = str "no-select-star" ∨ e.rule = str "require-table-alias" := by
  intro e he
  rcases mem_foldl_append2 _ _ _ _ _ he with h | ⟨stmt, _, h | h⟩
  · simp at h
  · revert h
    split
    · intro h; exact Or.inl (check_select_star_rule stmt e h)
    · intro h; simp at h
  · revert h
    split
    · intro h; exact Or.inr (check_table_alias_rule stmt e h)
    · intro h; simp at h

/-- C8: when the document fails to parse, `lint` consists exactly of the
keyword-case warnings and the trailing-semicolon warnings; no
`no-select-star` or `require-table-alias` warning appears; and for every
parse outcome, restricting the result to the keyword-case and
trailing-semicolon rules gives exactly the parse-failure result. -/
theorem lint_parse_failure_behavior (config : LintConfig) (sql : List Char)
    (tok_result : Option (List RToken)) :
    lint config sql tok_result none =
        (if config.keyword_case ≠ KeywordCase.ignore then
          check_keyword_case config.keyword_case sql tok_result
        else []) ++
          (if config.trailing_semicolon then check_trailing_semicolon sql else []) ∧
      (∀ e ∈ lint config sql tok_result none,
        e.rule ≠ str "no-select-star" ∧ e.rule ≠ str "require-table-alias") ∧
      ∀ parse_result,
        (lint config sql tok_result parse_result).filter
            (fun e =>
              decide (e.rule = str "keyword-case" ∨ e.rule = str "trailing-semicolon")) =
          lint config sql tok_result none := by
  have hkw : ∀ e ∈ (if config.keyword_case ≠ KeywordCase.ignore then
      check_keyword_case config.keyword_case sql tok_result else []),
      e.rule = str "keyword-case" := by
    intro e he
    split at he
    · exact check_keyword_case_rule _ _ _ e he
    · simp at he
  have hsemi : ∀ e ∈ (if config.trailing_semicolon then check_trailing_semicolon sql
      else []), e.rule = str "trailing-semicolon" := by
    intro e he
    split at he
    · exact check_trailing_semicolon_rule _ e he
    · simp at he
  have h0 : lint config sql tok_result none =
      (if config.keyword_case ≠ KeywordCase.ignore then
        check_keyword_case config.keyword_case sql tok_result
      else []) ++
        (if config.trailing_semicolon then check_trailing_semicolon sql else []) := by
    simp [lint]
  refine ⟨h0, ?_, ?_⟩
  · intro e he
    rw [h0] at he
    rcases List.mem_append.1 he with h | h
    · rw [hkw e h]
      exact ⟨by decide, by decide⟩
    · rw [hsemi e h]
      exact ⟨by decide, by decide⟩
  · intro parse_result
    have hfilkw : (if config.keyword_case ≠ KeywordCase.ignore then
        check_keyword_case config.keyword_case sql tok_result else []).filter
          (fun e =>
            decide (e.rule = str "keyword-case" ∨ e.rule = str "trailing-semicolon")) =
        (if config.keyword_case ≠ KeywordCase.ignore then
          check_keyword_case config.keyword_case sql tok_result else []) := by
      rw [List.filter_eq_self]
      intro e he
      rw [hkw e he]
      decide
    have hfilsemi : (if config.trailing_semicolon then check_trailing_semicolon sql
        else []).filter
          (fun e =>
            decide (e.rule = str "keyword-case" ∨ e.rule = str "trailing-semicolon")) =
        (if config.trailing_semicolon then check_trailing_semicolon sql else []) := by
      rw [List.filter_eq_self]
      intro e he
      rw [hsemi e he]
      decide
    cases parse_result with
    | none =>
      rw [h0, List.filter_append, hfilkw, hfilsemi]
    | some statements =>
      have h1 : lint config sql tok_result (some statements) =
          (if config.keyword_case ≠ KeywordCase.ignore then
            check_keyword_case config.keyword_case sql tok_result
          else []) ++
            statements.foldl
              (fun acc stmt =>
                acc ++ (if config.no_select_star then check_select_star stmt else []) ++
                  (if config.require_table_alias then check_table_alias stmt else []))
              [] ++
            (if config.trailing_semicolon then check_trailing_semicolon sql else []) := by
        simp [lint]
      have hfiltree : (statements.foldl
          (fun acc stmt =>
            acc ++ (if config.no_select_star then check_select_star stmt else []) ++
              (if config.require_table_alias then check_table_alias stmt else []))
          []).filter
            (fun e =>
              decide (e.rule = str "keyword-case" ∨ e.rule = str "trailing-semicolon")) =
          [] := by
        rw [List.filter_eq_nil_iff]
        intro e he
        rcases lint_tree_rules config statements e he with h | h <;> rw [h] <;> decide
      rw [h1, List.filter_append, List.filter_append, hfilkw, hfilsemi, hfiltree, h0]
      simp

/-! ## C3: position round-trip -/

theorem posAux_zero (s : List Char) (l c : Nat) : posToLineColAux s 0 l c = (l, c) := by
  cases s <;> rfl

theorem posAux_nil (m l c : Nat) : posToLineColAux [] m l c = (l, c) := by
  cases m <;> rfl

theorem posAux_cons_nl (rest : List Char) (m l c : Nat) :
    posToLineColAux ('\n' :: rest) (m + 1) l c = posToLineColAux rest m (l + 1) 1 := by
  simp [posToLineColAux]

theorem posAux_cons_other (ch : Char) (rest : List Char) (m l c : Nat) (h : ¬ch = '\n') :
    posToLineColAux (ch :: rest) (m + 1) l c = posToLineColAux rest m l (c + 1) := by
  simp [posToLineColAux, h]

theorem lineOffsetsAux_shift (v : List Char) :
    ∀ j, lineOffsetsAux v j = (lineOffsetsAux v 0).map (· + j) := by
  induction v with
  | nil => intro j; simp [lineOffsetsAux]
  | cons c rest ih =>
    intro j
    by_cases hc : c = '\n'
    · subst hc
      have l1 : lineOffsetsAux ('\n' :: rest) j = (j + 1) :: lineOffsetsAux rest (j + 1) := by
        simp [lineOffsetsAux]
      have l2 : lineOffsetsAux ('\n' :: rest) 0 = 1 :: lineOffsetsAux rest 1 := by
        simp [lineOffsetsAux]
      rw [l1, l2, ih (j + 1), ih 1, List.map_cons, List.map_map]
      simp only [List.cons.injEq]
      constructor
      · omega
      · exact List.map_congr_left fun x _ => by simp only [Function.comp_apply]; omega
    · have l1 : lineOffsetsAux (c :: rest) j = lineOffsetsAux rest (j + 1) := by
        simp [lineOffsetsAux, hc]
      have l2 : lineOffsetsAux (c :: rest) 0 = lineOffsetsAux rest 1 := by
        simp [lineOffsetsAux, hc]
      rw [l1, l2, ih (j + 1), ih 1, List.map_map]
      exact List.map_congr_left fun x _ => by simp only [Function.comp_apply]; omega

theorem lineOffsetsAux_append_no_nl (u : List Char) :
    ∀ (w : List Char) (j : Nat), (∀ c ∈ u, c ≠ '\n') →
      lineOffsetsAux (u ++ w) j = lineOffsetsAux w (j + u.length) := by
  induction u with
  | nil => intro w j _; simp
  | cons c u' ih =>
    intro w j h
    have hc : ¬c = '\n' := h c (by simp)
    have l1 : lineOffsetsAux (c :: (u' ++ w)) j = lineOffsetsAux (u' ++ w) (j + 1) := by
      simp [lineOffsetsAux, hc]
    rw [List.cons_append, l1, ih w (j + 1) (fun x hx => h x (by simp [hx]))]
    congr 1
    simp only [List.length_cons]
    omega

theorem build_line_offsets_decomp (u v : List Char) (h : ∀ c ∈ u, c ≠ '\n') :
    build_line_offsets (u ++ '\n' :: v) =
      0 :: (build_line_offsets v).map (· + (u.length + 1)) := by
  unfold build_line_offsets
  rw [lineOffsetsAux_append_no_nl u ('\n' :: v) 0 h]
  have l1 : lineOffsetsAux ('\n' :: v) (0 + u.length) =
      (u.length + 1) :: lineOffsetsAux v (u.length + 1) := by
    simp [lineOffsetsAux]
  rw [l1, lineOffsetsAux_shift v (u.length + 1), List.map_cons]
  simp

theorem posAux_no_nl (u : List Char) :
    ∀ (w : List Char) (m line col : Nat), (∀ c ∈ u, c ≠ '\n') →
      posToLineColAux (u ++ w) (u.length + m) line col =
        posToLineColAux w m line (col + u.length) := by
  induction u with
  | nil => intro w m line col _; simp
  | cons c u' ih =>
    intro w m line col h
    have hc : ¬c = '\n' := h c (by simp)
    have harith : (c :: u').length + m = (u'.length + m) + 1 := by simp; omega
    rw [List.cons_append, harith, posAux_cons_other c (u' ++ w) _ _ _ hc,
      ih w m line (col + 1) (fun x hx => h x (by simp [hx]))]
    congr 1
    simp only [List.length_cons]
    omega

theorem posAux_line_shift (v : List Char) :
    ∀ (m l k c : Nat), posToLineColAux v m (l + k) c =
      ((posToLineColAux v m l c).1 + k, (posToLineColAux v m l c).2) := by
  induction v with
  | nil => intro m l k c; rw [posAux_nil, posAux_nil]
  | cons ch rest ih =>
    intro m l k c
    cases m with
    | zero => rw [posAux_zero, posAux_zero]
    | succ m' =>
      by_cases hc : ch = '\n'
      · subst hc
        rw [posAux_cons_nl, posAux_cons_nl]
        have : l + k + 1 = (l + 1) + k := by omega
        rw [this, ih]
      · rw [posAux_cons_other ch rest m' _ _ hc, posAux_cons_other ch rest m' _ _ hc, ih]

theorem posAux_within (s : List Char) :
    ∀ (m l c : Nat), m ≤ (s.takeWhile (· ≠ '\n')).length →
      posToLineColAux s m l c = (l, c + m) := by
  induction s with
  | nil => intro m l c h; simp at h; subst h; rw [posAux_nil]; simp
  | cons ch rest ih =>
    intro m l c h
    cases m with
    | zero => rw [posAux_zero]; simp
    | succ m' =>
      by_cases hc : ch = '\n'
      · exfalso
        subst hc
        simp [List.takeWhile] at h
      · have h' : m' ≤ (rest.takeWhile (· ≠ '\n')).length := by
          rw [List.takeWhile_cons_of_pos (by simp [hc])] at h
          simpa using h
        rw [posAux_cons_other ch rest m' _ _ hc, ih m' l (c + 1) h']
        congr 1
        omega

theorem lineOffsetsAux_nil_of_no_nl (s : List Char) :
    ∀ j, (∀ c ∈ s, c ≠ '\n') → lineOffsetsAux s j = [] := by
  induction s with
  | nil => intro _ _; rfl
  | cons c rest ih =>
    intro j h
    have hc : ¬c = '\n' := h c (by simp)
    simp only [lineOffsetsAux, if_neg hc]
    exact ih (j + 1) (fun x hx => h x (by simp [hx]))

theorem exists_line_decomp (s : List Char) (h : 2 ≤ (build_line_offsets s).length) :
    ∃ u v, s = u ++ '\n' :: v ∧ ∀ c ∈ u, c ≠ '\n' := by
  induction s with
  | nil => simp [build_line_offsets, lineOffsetsAux] at h
  | cons c rest ih =>
    by_cases hc : c = '\n'
    · exact ⟨[], rest, by rw [hc]; rfl, by simp⟩
    · have hlen : 2 ≤ (build_line_offsets rest).length := by
        have l1 : lineOffsetsAux (c :: rest) 0 = lineOffsetsAux rest 1 := by
          simp [lineOffsetsAux, hc]
        have l2 : lineOffsetsAux rest 1 = (lineOffsetsAux rest 0).map (· + 1) :=
          lineOffsetsAux_shift rest 1
        simp only [build_line_offsets, List.length_cons, l1, l2, List.length_map] at h ⊢
        omega
      obtain ⟨u, v, huv, hu⟩ := ih hlen
      exact ⟨c :: u, v, by rw [huv]; rfl,
        fun x hx => by
          rcases List.mem_cons.1 hx with h' | h'
          · rw [h']; exact hc
          · exact hu x h'⟩

theorem getD_map_add (l : List Nat) (m k : Nat) (h : m < l.length) :
    (l.map (· + k)).getD m 0 = l.getD m 0 + k := by
  rw [List.getD_eq_getElem?_getD, List.getD_eq_getElem?_getD, List.getElem?_map,
    List.getElem?_eq_getElem h]
  simp

/-- C3: for every source text and every 1-based position `(line, col)` with
`line` in the range of the line-offset table and `col` at most that line's
length + 1, converting `(line, col)` to a byte offset via
`build_line_offsets`/`location_to_byte_offset` and back via
`pos_to_line_col` recovers exactly `(line, col)`. -/
theorem location_roundtrip :
    ∀ (line : Nat) (s : List Char) (col : Nat),
      1 ≤ line → line ≤ (build_line_offsets s).length →
      1 ≤ col → col ≤ (nthLine s line).length + 1 →
      pos_to_line_col s (location_to_byte_offset (build_line_offsets s) line col) =
        (line, col) := by
  intro line
  induction line with
  | zero => intro s col h1 _ _ _; omega
  | succ n ih =>
    intro s col h1 h2 h3 h4
    cases n with
    | zero =>
      have hlt : (1 : Nat) - 1 < (build_line_offsets s).length := by
        simp [build_line_offsets]
      have hoff0 : location_to_byte_offset (build_line_offsets s) 1 col = col - 1 := by
        simp only [location_to_byte_offset]
        rw [if_pos hlt]
        simp [build_line_offsets]
      have hnth : nthLine s 1 = s.takeWhile (· ≠ '\n') := by
        simp [nthLine, build_line_offsets]
      rw [hoff0]
      unfold pos_to_line_col
      rw [posAux_within s (col - 1) 1 1 (by rw [hnth] at h4; omega)]
      simp only [Prod.mk.injEq, true_and]
      omega
    | succ m =>
      have hlen2 : 2 ≤ (build_line_offsets s).length := by omega
      obtain ⟨u, v, rfl, hu⟩ := exists_line_decomp s hlen2
      have hdec := build_line_offsets_decomp u v hu
      have hlenv : (build_line_offsets (u ++ '\n' :: v)).length =
          (build_line_offsets v).length + 1 := by
        rw [hdec]; simp
      have hmlt : m + 1 ≤ (build_line_offsets v).length := by omega
      have hov : location_to_byte_offset (build_line_offsets v) (m + 1) col =
          (build_line_offsets v).getD m 0 + (col - 1) := by
        simp only [location_to_byte_offset]
        rw [if_pos (by omega)]
        simp
      have hgd : (0 :: (build_line_offsets v).map (· + (u.length + 1))).getD (m + 2 - 1) 0 =
          (build_line_offsets v).getD m 0 + (u.length + 1) := by
        have e0 : m + 2 - 1 = m + 1 := by omega
        rw [e0, List.getD_cons_succ, getD_map_add _ _ _ (by omega)]
      have hoffs : location_to_byte_offset (build_line_offsets (u ++ '\n' :: v)) (m + 2) col =
          (u.length + 1) + ((build_line_offsets v).getD m 0 + (col - 1)) := by
        simp only [location_to_byte_offset]
        rw [if_pos (by rw [hlenv]; omega), hdec, hgd]
        omega
      have hdropeq : (u ++ '\n' :: v).drop
          ((build_line_offsets v).getD m 0 + (u.length + 1)) =
          v.drop ((build_line_offsets v).getD m 0) := by
        have e1 : (build_line_offsets v).getD m 0 + (u.length + 1) =
            u.length + (1 + (build_line_offsets v).getD m 0) := by omega
        rw [e1, List.drop_append]
        have e2 : 1 + (build_line_offsets v).getD m 0 =
            ((build_line_offsets v).getD m 0) + 1 := by omega
        rw [e2, List.drop_succ_cons]
      have hnth : nthLine (u ++ '\n' :: v) (m + 2) = nthLine v (m + 1) := by
        unfold nthLine
        rw [hdec, hgd, hdropeq]
        have e0 : m + 1 - 1 = m := by omega
        rw [e0]
      have hIH : posToLineColAux v ((build_line_offsets v).getD m 0 + (col - 1)) 1 1 =
          (m + 1, col) := by
        have hmain := ih v col (by omega) hmlt h3 (by rw [hnth] at h4; exact h4)
        rw [hov] at hmain
        exact hmain
      rw [hoffs]
      unfold pos_to_line_col
      have harr : (u.length + 1) + ((build_line_offsets v).getD m 0 + (col - 1)) =
          u.length + (((build_line_offsets v).getD m 0 + (col - 1)) + 1) := by omega
      rw [harr, posAux_no_nl u ('\n' :: v) _ 1 1 hu, posAux_cons_nl, posAux_line_shift v _ 1 1 1,
        hIH]

/-- C3 witness: position `(2, 3)` of `"ab\ncd"` (one past the end of line 2)
round-trips through byte offset 5. -/
theorem location_roundtrip_witness :
    pos_to_line_col (str "ab\ncd")
        (location_to_byte_offset (build_line_offsets (str "ab\ncd")) 2 3) = (2, 3) :=
  location_roundtrip 2 (str "ab\ncd") 3 (by decide) (by decide) (by decide) (by decide)

/-! ## C1: replacement refinement -/

theorem applyRev_nil (s : List Char) : applyRev s [] = s := rfl

theorem applyRev_cons (s : List Char) (r : Nat × Nat × List Char)
    (reps : List (Nat × Nat × List Char)) :
    applyRev s (r :: reps) = applyOne (applyRev s reps) r := by
  simp [applyRev, List.foldl_append]

theorem applyOne_lift (p t : List Char) (r : Nat × Nat × List Char)
    (hk : p.length ≤ r.1) :
    applyOne (p ++ t) r = p ++ applyOne t (r.1 - p.length, r.2) := by
  unfold applyOne
  dsimp only
  have hlen : (p ++ t).length = p.length + t.length := List.length_append p t
  by_cases hc : r.1 + r.2.1 ≤ (p ++ t).length
  · rw [if_pos hc, if_pos (by simp only [hlen] at hc; omega)]
    rw [List.take_append_eq_append_take, List.take_of_length_le (by omega),
      List.drop_append_eq_append_drop, List.drop_of_length_le (by omega)]
    simp only [List.nil_append]
    have e1 : r.1 + r.2.1 - p.length = r.1 - p.length + r.2.1 := by omega
    rw [e1]
    simp [List.append_assoc]
  · rw [if_neg hc, if_neg (by simp only [hlen] at hc; omega)]

theorem applyRev_split (reps : List (Nat × Nat × List Char)) :
    ∀ (s : List Char) (k : Nat), k ≤ s.length → (∀ r ∈ reps, k ≤ r.1) →
      applyRev s reps = s.take k ++ applyRev (s.drop k) (shiftReps k reps) := by
  induction reps with
  | nil => intro s k hk _; simp [applyRev, shiftReps]
  | cons r rest ih =>
    intro s k hk hoff
    have htlen : (s.take k).length = k := by simp; omega
    rw [applyRev_cons, ih s k hk (fun x hx => hoff x (by simp [hx])),
      applyOne_lift _ _ _ (by rw [htlen]; exact hoff r (by simp))]
    have : shiftReps k (r :: rest) = (r.1 - k, r.2) :: shiftReps k rest := rfl
    rw [this, applyRev_cons, htlen]

theorem shiftReps_sorted (k : Nat) (reps : List (Nat × Nat × List Char))
    (hs : repsSorted reps) (hoff : ∀ r ∈ reps, k ≤ r.1) :
    repsSorted (shiftReps k reps) := by
  unfold repsSorted shiftReps
  rw [List.pairwise_map]
  refine hs.imp_of_mem ?_
  intro a b ha hb hab
  have hka := hoff a ha
  simp only
  omega

theorem shiftReps_inBounds (k : Nat) (s : List Char)
    (reps : List (Nat × Nat × List Char)) (hb : repsInBounds s reps)
    (hoff : ∀ r ∈ reps, k ≤ r.1) :
    repsInBounds (s.drop k) (shiftReps k reps) := by
  intro r' hr'
  unfold shiftReps at hr'
  rcases List.mem_map.1 hr' with ⟨r, hr, rfl⟩
  have h1 := hb r hr
  have h2 := hoff r hr
  simp only [List.length_drop]
  omega

theorem applyChunks_nil (s : List Char) : applyChunks s [] = s := by
  simp [applyChunks]

theorem applyChunks_cons (s : List Char) (off len : Nat) (repl : List Char)
    (rest : List (Nat × Nat × List Char)) :
    applyChunks s ((off, len, repl) :: rest) =
      s.take off ++ repl ++
        applyChunks (s.drop (off + len)) (shiftReps (off + len) rest) := by
  simp [applyChunks]

theorem applyRev_eq_applyChunks_aux : ∀ (n : Nat) (reps : List (Nat × Nat × List Char))
    (s : List Char), reps.length ≤ n → repsSorted reps → repsInBounds s reps →
    applyRev s reps = applyChunks s reps := by
  intro n
  induction n with
  | zero =>
    intro reps s hn _ _
    have : reps = [] := List.eq_nil_of_length_eq_zero (by omega)
    subst this
    rw [applyRev_nil, applyChunks_nil]
  | succ n ihn =>
    intro reps s hn hs hb
    cases reps with
    | nil => rw [applyRev_nil, applyChunks_nil]
    | cons r rest => ?_
    rcases List.pairwise_cons.1 hs with ⟨hhead, htail⟩
    have hk : r.1 + r.2.1 ≤ s.length := hb r (by simp)
    have hoff : ∀ x ∈ rest, r.1 + r.2.1 ≤ x.1 := hhead
    rw [applyRev_cons, applyRev_split rest s (r.1 + r.2.1) hk hoff]
    unfold applyOne
    rw [if_pos (by simp; omega)]
    have htake : ((s.take (r.1 + r.2.1)) ++
        applyRev (s.drop (r.1 + r.2.1)) (shiftReps (r.1 + r.2.1) rest)).take r.1 =
        s.take r.1 := by
      rw [List.take_append_eq_append_take]
      have e1 : (s.take (r.1 + r.2.1)).take r.1 = s.take r.1 := by
        rw [List.take_take]
        congr 1
        omega
      have e2 : r.1 - (s.take (r.1 + r.2.1)).length = 0 := by simp; omega
      rw [e1, e2]
      simp
    have hdrop : ((s.take (r.1 + r.2.1)) ++
        applyRev (s.drop (r.1 + r.2.1)) (shiftReps (r.1 + r.2.1) rest)).drop
          (r.1 + r.2.1) =
        applyRev (s.drop (r.1 + r.2.1)) (shiftReps (r.1 + r.2.1) rest) := by
      rw [List.drop_append_eq_append_drop]
      have e1 : (s.take (r.1 + r.2.1)).drop (r.1 + r.2.1) = [] := by
        rw [List.drop_eq_nil_iff]
        simp
      have e2 : r.1 + r.2.1 - (s.take (r.1 + r.2.1)).length = 0 := by simp; omega
      rw [e1, e2]
      simp
    rw [htake, hdrop,
      ihn (shiftReps (r.1 + r.2.1) rest) (s.drop (r.1 + r.2.1))
        (by simp only [shiftReps, List.length_map, List.length_cons] at hn ⊢; omega)
        (shiftReps_sorted _ _ htail hoff)
        (shiftReps_inBounds _ _ _ (fun x hx => hb x (by simp [hx])) hoff)]
    rcases r with ⟨off, len, repl⟩
    rw [applyChunks_cons]

theorem applyRev_eq_applyChunks (reps : List (Nat × Nat × List Char)) (s : List Char)
    (hs : repsSorted reps) (hb : repsInBounds s reps) :
    applyRev s reps = applyChunks s reps :=
  applyRev_eq_applyChunks_aux reps.length reps s le_rfl hs hb

theorem shiftReps_shiftReps (k m : Nat) (reps : List (Nat × Nat × List Char)) :
    shiftReps m (shiftReps k reps) = shiftReps (k + m) reps := by
  unfold shiftReps
  rw [List.map_map]
  exact List.map_congr_left fun r _ => by
    simp only [Function.comp_apply, Nat.sub_sub]

theorem shiftReps_zero (reps : List (Nat × Nat × List Char)) : shiftReps 0 reps = reps := by
  simp [shiftReps]

theorem applyForwardAux_cons (s : List Char) (off len : Nat) (repl : List Char)
    (rest : List (Nat × Nat × List Char)) (d : Int) :
    applyForwardAux s ((off, len, repl) :: rest) d =
      applyForwardAux
        (s.take ((off : Int) + d).toNat ++ repl ++
          s.drop (((off : Int) + d).toNat + len))
        rest (d + (repl.length : Int) - (len : Int)) := rfl

theorem applyForwardAux_split :
    ∀ (reps : List (Nat × Nat × List Char)) (s p : List Char) (k : Nat) (d : Int),
      (p.length : Int) = (k : Int) + d →
      (∀ r ∈ reps, k ≤ r.1) → repsSorted reps → repsInBounds s reps → k ≤ s.length →
      applyForwardAux (p ++ s.drop k) reps d =
        p ++ applyChunks (s.drop k) (shiftReps k reps) := by
  intro reps
  induction reps with
  | nil =>
    intro s p k d _ _ _ _ _
    rw [show shiftReps k [] = [] from rfl, applyChunks_nil]
    rfl
  | cons r rest ih =>
    intro s p k d hpd hk hs hb hks
    rcases r with ⟨off, len, repl⟩
    rcases List.pairwise_cons.1 hs with ⟨hhead, htail⟩
    have hoffk : k ≤ off := hk (off, len, repl) (by simp)
    have hofflen : off + len ≤ s.length := hb (off, len, repl) (by simp)
    have htlen : (s.drop k).length = s.length - k := by simp
    have ho : ((off : Int) + d).toNat = p.length + (off - k) := by omega
    rw [applyForwardAux_cons, ho]
    have htake : (p ++ s.drop k).take (p.length + (off - k)) =
        p ++ (s.drop k).take (off - k) := by
      rw [List.take_append_eq_append_take, List.take_of_length_le (by omega),
        Nat.add_sub_cancel_left]
    have hdrop : (p ++ s.drop k).drop (p.length + (off - k) + len) =
        (s.drop k).drop ((off - k) + len) := by
      rw [List.drop_append_eq_append_drop, List.drop_of_length_le (by omega),
        show p.length + (off - k) + len - p.length = (off - k) + len from by omega,
        List.nil_append]
    rw [htake, hdrop]
    have hinner : (s.drop k).drop ((off - k) + len) = s.drop (off + len) := by
      rw [List.drop_drop, show k + ((off - k) + len) = off + len from by omega]
    have happ : p ++ (s.drop k).take (off - k) ++ repl ++ (s.drop k).drop ((off - k) + len) =
        (p ++ (s.drop k).take (off - k) ++ repl) ++ s.drop (off + len) := by
      rw [hinner]
    rw [happ]
    have hplen : (((p ++ (s.drop k).take (off - k) ++ repl)).length : Int) =
        ((off + len : Nat) : Int) + (d + (repl.length : Int) - (len : Int)) := by
      have hmin : ((s.drop k).take (off - k)).length = off - k := by
        rw [List.length_take]
        omega
      simp only [List.length_append, hmin]
      push_cast
      omega
    have hdroplen : off + len ≤ s.length := hofflen
    rw [ih s (p ++ (s.drop k).take (off - k) ++ repl) (off + len)
      (d + (repl.length : Int) - (len : Int)) hplen hhead htail
      (fun x hx => hb x (by simp [hx])) hdroplen]
    have hsh : shiftReps k ((off, len, repl) :: rest) =
        (off - k, len, repl) :: shiftReps k rest := rfl
    rw [hsh, applyChunks_cons]
    have hcomp : shiftReps ((off - k) + len) (shiftReps k rest) =
        shiftReps (off + len) rest := by
      rw [shiftReps_shiftReps]
      congr 1
      omega
    rw [hcomp, hinner]
    simp [List.append_assoc]

theorem applyForward_eq_applyChunks (reps : List (Nat × Nat × List Char)) (s : List Char)
    (hs : repsSorted reps) (hb : repsInBounds s reps) :
    applyForward s reps = applyChunks s reps := by
  have h := applyForwardAux_split reps s [] 0 0 (by simp) (by simp) hs hb (by simp)
  simpa [applyForward, shiftReps_zero] using h

theorem repOf_spec (L : List Nat) (t : SToken) (r : Nat × Nat × List Char)
    (h : repOf L t = some r) :
    r.1 = location_to_byte_offset L t.line t.column ∧ r.2.1 = tokenLen t := by
  rcases t with ⟨tok, line, column⟩
  rcases tok with ⟨v, q⟩ | tx
  · unfold repOf at h
    dsimp only at h
    by_cases h1 : q = none ∧ is_sql_keyword v
    · obtain ⟨hq, hkw⟩ := h1
      subst hq
      rw [if_pos ⟨rfl, hkw⟩] at h
      by_cases h2 : v ≠ toUpperL v
      · rw [if_pos h2] at h
        have hr := Option.some.inj h
        subst hr
        exact ⟨rfl, rfl⟩
      · rw [if_neg h2] at h
        exact absurd h (by simp)
    · rw [if_neg h1] at h
      exact absurd h (by simp)
  · unfold repOf at h
    dsimp only at h
    exact absurd h (by simp)

theorem computeReplacements_sorted (content : List Char) (tokens : List SToken)
    (h : wfTokenStream content tokens) :
    repsSorted (computeReplacements content tokens) := by
  unfold computeReplacements repsSorted
  rw [List.pairwise_filterMap]
  refine h.1.imp ?_
  intro a b hab x hx y hy
  rcases repOf_spec _ _ _ hx with ⟨hx1, hx2⟩
  rcases repOf_spec _ _ _ hy with ⟨hy1, hy2⟩
  rw [hx1, hx2, hy1]
  exact hab

theorem computeReplacements_inBounds (content : List Char) (tokens : List SToken)
    (h : wfTokenStream content tokens) :
    repsInBounds content (computeReplacements content tokens) := by
  intro r hr
  unfold computeReplacements at hr
  rcases List.mem_filterMap.1 hr with ⟨t, ht, hrt⟩
  rcases repOf_spec _ _ _ hrt with ⟨h1, h2⟩
  rw [h1, h2]
  exact (h.2 t ht).1

/-- C1: for a well-formed token stream (the external tokenizer's contract:
tokens in source order, spans non-overlapping, in bounds, and matching the
text), the keyword-case Replacements recorded by `fix_content` are pairwise
non-overlapping; applying them in descending offset order (the code's reverse
loop, bounds check included) produces the same final text as the forward,
offset-adjusting algorithm of the spec; and at the moment each replacement is
applied (all higher-offset replacements already applied) its target byte
range is still in bounds and still holds the original text of that range. -/
theorem fix_replacements_refinement (content : List Char) (tokens : List SToken)
    (h : wfTokenStream content tokens) :
    (computeReplacements content tokens).Pairwise
        (fun a b => a.1 + a.2.1 ≤ b.1 ∨ b.1 + b.2.1 ≤ a.1) ∧
      applyRev content (computeReplacements content tokens) =
        applyForward content (computeReplacements content tokens) ∧
      ∀ pre r post, computeReplacements content tokens = pre ++ r :: post →
        r.1 + r.2.1 ≤ (applyRev content post).length ∧
          ((applyRev content post).drop r.1).take r.2.1 =
            (content.drop r.1).take r.2.1 := by
  have hsorted := computeReplacements_sorted content tokens h
  have hbounds := computeReplacements_inBounds content tokens h
  refine ⟨hsorted.imp (fun hab => Or.inl hab), ?_, ?_⟩
  · rw [applyRev_eq_applyChunks _ _ hsorted hbounds,
      applyForward_eq_applyChunks _ _ hsorted hbounds]
  · intro pre r post hdecomp
    have hsub : List.Pairwise (fun a b => a.1 + a.2.1 ≤ b.1) (r :: post) := by
      have := hdecomp ▸ hsorted
      exact (List.pairwise_append.1 this).2.1
    have hpost_sorted : repsSorted post := (List.pairwise_cons.1 hsub).2
    have hpost_off : ∀ x ∈ post, r.1 + r.2.1 ≤ x.1 := (List.pairwise_cons.1 hsub).1
    have hrb : r.1 + r.2.1 ≤ content.length := by
      refine hbounds r ?_
      rw [hdecomp]
      simp
    have hsplit := applyRev_split post content (r.1 + r.2.1) hrb hpost_off
    have e1 : (content.take (r.1 + r.2.1)).length = r.1 + r.2.1 := by
      simp
      omega
    constructor
    · rw [hsplit]
      simp only [List.length_append, e1]
      omega
    · rw [hsplit, List.drop_append_eq_append_drop, e1,
        List.take_append_eq_append_take]
      have e2 : ((content.take (r.1 + r.2.1)).drop r.1).length = r.2.1 := by
        simp only [List.length_drop, e1]
        omega
      rw [List.take_of_length_le (le_of_eq e2), e2, Nat.sub_self, List.take_zero,
        List.append_nil, List.drop_take, Nat.add_sub_cancel_left]

/-- C1 witness: the token stream of `"select x"` is well formed, and the
refinement conclusions hold for it. -/
theorem fix_replacements_refinement_witness :
    wfTokenStream refineB_text refineB_tokens ∧
      ((computeReplacements refineB_text refineB_tokens).Pairwise
          (fun a b => a.1 + a.2.1 ≤ b.1 ∨ b.1 + b.2.1 ≤ a.1) ∧
        applyRev refineB_text (computeReplacements refineB_text refineB_tokens) =
          applyForward refineB_text (computeReplacements refineB_text refineB_tokens) ∧
        ∀ pre r post,
          computeReplacements refineB_text refineB_tokens = pre ++ r :: post →
          r.1 + r.2.1 ≤ (applyRev refineB_text post).length ∧
            ((applyRev refineB_text post).drop r.1).take r.2.1 =
              (refineB_text.drop r.1).take r.2.1) :=
  have hwf : wfTokenStream refineB_text refineB_tokens := by
    unfold wfTokenStream
    exact ⟨by decide, by decide⟩
  ⟨hwf, fix_replacements_refinement refineB_text refineB_tokens hwf⟩

end Sqlex

